import Mathlib

/-!
Verification of the `local-drive` backup engine against its specification.

Shallow embedding of the core components:
* `PathBuilder` (`backup/sync/path_builder.py`): name sanitization, path
  construction, conflict resolution, per-id path cache;
* `AccountStorage` (`backup/storage.py`): content-addressed blob writes,
  archive moves and restores, modelled over an association-list filesystem;
* `SyncEngine` (`backup/sync/engine.py`): cursor bookkeeping of the
  initial/incremental runs and the deletion-state sweep;
* `GarbageCollector` (`backup/gc.py`): version retention (phase 1).

Strings from the Python source are modelled as `List Char`; bytes as
`List Nat`; timestamps as `Int`.  SHA-256 itself is not re-implemented:
the hex digest is an explicit function parameter everywhere it occurs,
exactly as the engine treats `hashlib` output as an opaque hex string.
-/

set_option maxRecDepth 20000

namespace LocalDrive

/-! ## PathBuilder: name sanitization (`PathBuilder._sanitize_name`) -/

/-- Characters forbidden in filenames (`PathBuilder.INVALID_CHARS`,
`'<>:"|?*\x00'`). -/
def INVALID_CHARS : List Char := ['<', '>', ':', '"', '|', '?', '*', Char.ofNat 0]

/-- One `str.replace(c, "_")` pass. -/
def replaceChar (c : Char) (s : List Char) : List Char :=
  s.map fun x => if x = c then '_' else x

/-- The `for char in self.INVALID_CHARS: name = name.replace(char, "_")` loop. -/
def replaceInvalid (s : List Char) : List Char :=
  INVALID_CHARS.foldl (fun acc c => replaceChar c acc) s

/-- The character set of Python `name.strip(". ")`. -/
def stripChars : List Char := ['.', ' ']

/-- Python `str.strip(". ")`: drop leading and trailing dots and spaces. -/
def stripDotSpace (s : List Char) : List Char :=
  ((s.dropWhile (· ∈ stripChars)).reverse.dropWhile (· ∈ stripChars)).reverse

/-- Python `s.rsplit(sep, 1)` when `sep ∈ s`: split at the LAST occurrence
of `sep`, returning `some (before, after)`; `none` when `sep ∉ s`. -/
def rsplitLast (sep : Char) : List Char → Option (List Char × List Char)
  | [] => none
  | c :: rest =>
    match rsplitLast sep rest with
    | some (b, e) => some (c :: b, e)
    | none => if c = sep then some ([], rest) else none

/-- The value `_sanitize_name` computes before the length limit: replace
invalid characters with `_`, strip leading/trailing dots and spaces,
default to `"unnamed"` when empty. -/
def sanitizeCore (name : List Char) : List Char :=
  let n2 := stripDotSpace (replaceInvalid name)
  if n2 = [] then "unnamed".toList else n2

/-- `PathBuilder._sanitize_name`: `sanitizeCore`, then limit the length to
255 characters, keeping an extension of up to 10 characters. -/
def sanitize_name (name : List Char) : List Char :=
  let n3 := sanitizeCore name
  if 255 < n3.length then
    match rsplitLast '.' n3 with
    | some (base, ext) =>
      if ext.length ≤ 10 then
        base.take (255 - ext.length - 1) ++ '.' :: ext
      else
        n3.take 255
    | none => n3.take 255
  else n3

/-- UTF-8 byte size of a modelled string (what Python `len(name.encode())`
would measure; the code instead limits `len(name)`, i.e. characters). -/
def utf8Len (s : List Char) : Nat :=
  (s.map Char.utf8Size).sum

/-! ## PathBuilder: path construction and conflict resolution -/

/-- The fields of a provider file record that `PathBuilder` consults
(`DriveFile` in `backup/providers/google_drive.py`). -/
structure DriveFile where
  id : List Char
  name : List Char
  parents : List (List Char)
deriving DecidableEq

/-- A `BackupItem` row as seen by the path builder: its provider item id
and its stored relative path (fields `provider_item_id`, `path`). -/
structure BackupItemRow where
  provider_item_id : List Char
  path : List Char
deriving DecidableEq

/-- The in-memory `_path_cache` dict, provider id to path.  New entries
are consed on the front, so lookup finds the most recent binding, like a
Python dict overwrite. -/
abbrev PathCache := List (List Char × List Char)

/-- Association-list lookup (first, i.e. most recent, binding wins). -/
def lookupAL {α β : Type} [DecidableEq α] : List (α × β) → α → Option β
  | [], _ => none
  | (k2, v) :: rest, k => if k2 = k then some v else lookupAL rest k

/-- `PathBuilder._load_cache`: load `provider_item_id → path` for every
BackupItem of the sync root (dict insertion: later rows shadow earlier). -/
def load_cache (db : List BackupItemRow) : PathCache :=
  db.foldl (fun c it => (it.provider_item_id, it.path) :: c) []

/-- The conflict query inside `_resolve_conflicts`: does some BackupItem
of this sync root hold `p` under a different provider id? -/
def conflictB (db : List BackupItemRow) (p fid : List Char) : Bool :=
  db.any fun it => decide (it.path = p ∧ it.provider_item_id ≠ fid)

/-- Decimal rendering of the counter, `f"{counter}"`. -/
def natDigits (n : Nat) : List Char := Nat.toDigits 10 n

/-- One numbered variant of `original_path`: insert ` (counter)` before
the extension when `"." in original_path` and the piece after the last
dot has no slash; otherwise append ` (counter)`. -/
def variant (orig : List Char) (counter : Nat) : List Char :=
  match rsplitLast '.' orig with
  | some (b, e) =>
    if '/' ∈ e then orig ++ ' ' :: '(' :: (natDigits counter ++ [')'])
    else b ++ ' ' :: '(' :: (natDigits counter ++ ')' :: '.' :: e)
  | none => orig ++ ' ' :: '(' :: (natDigits counter ++ [')'])

/-- The `while True` loop of `_resolve_conflicts`: check the current
path; if taken, build the next numbered variant and increment the
counter; past 1000, fall back to the provider-id-suffixed path. -/
def resolveLoop (db : List BackupItemRow) (fid orig : List Char) :
    Nat → List Char → List Char
  | counter, path =>
    if conflictB db path fid then
      let p2 := variant orig counter
      if 1000 < counter + 1 then orig ++ '_' :: fid
      else resolveLoop db fid orig (counter + 1) p2
    else path
termination_by counter _ => 1001 - counter
decreasing_by simp_wf; omega

/-- `PathBuilder._resolve_conflicts(path, file_id)`. -/
def resolve_conflicts (db : List BackupItemRow) (path fid : List Char) :
    List Char :=
  resolveLoop db fid path 1 path

/-- Parent path resolution inside `build_path`: in-memory cache first,
then the BackupItem table, then the `_pending_/<parent_id>` placeholder.
Returns the parent path and the possibly-extended cache. -/
def resolveParent (db : List BackupItemRow) (cache : PathCache)
    (parent_id : List Char) : List Char × PathCache :=
  match lookupAL cache parent_id with
  | some pp => (pp, cache)
  | none =>
    match db.find? (fun it => decide (it.provider_item_id = parent_id)) with
    | some it => (it.path, (parent_id, it.path) :: cache)
    | none => ("_pending_/".toList ++ parent_id, cache)

/-- `PathBuilder.build_path`: cached path if the id is known; bare
sanitized name when there are no parents or the literal id `"root"` is
among the parents; otherwise first parent's path, `/`, sanitized name —
in every branch followed by conflict resolution and a cache store. -/
def build_path (db : List BackupItemRow) (cache : PathCache) (f : DriveFile) :
    List Char × PathCache :=
  match lookupAL cache f.id with
  | some p => (p, cache)
  | none =>
    if f.parents = [] ∨ "root".toList ∈ f.parents then
      let path := resolve_conflicts db (sanitize_name f.name) f.id
      (path, (f.id, path) :: cache)
    else
      let parent_id := f.parents.headI
      let pc := resolveParent db cache parent_id
      let name := sanitize_name f.name
      let path := resolve_conflicts db (pc.1 ++ '/' :: name) f.id
      (path, (f.id, path) :: pc.2)

/-! ### Cache (memoization) behaviour of `build_path` -/

/-- Reference decimal rendering used to reason about `Nat.toDigits 10`:
most significant digit first. -/
def decRep (n : Nat) : List Char :=
  if _h : n < 10 then [Nat.digitChar n]
  else decRep (n / 10) ++ [Nat.digitChar (n % 10)]
decreasing_by exact Nat.div_lt_self (by omega) (by omega)

/-- Decimal parser: left inverse of `decRep`. -/
def ofDecDigits (s : List Char) : Nat :=
  s.foldl (fun a c => 10 * a + (c.toNat - 48)) 0

/-- The path the conflict loop examines at step `j`: the original path
for `j = 0`, the `j`-th numbered variant afterwards. -/
def wVar (orig : List Char) : Nat → List Char
  | 0 => orig
  | j + 1 => variant orig (j + 1)

/-- The two constant pieces around the counter digits in `variant`. -/
def vsplit (orig : List Char) : List Char × List Char :=
  match rsplitLast '.' orig with
  | some (b, e) =>
    if '/' ∈ e then (orig ++ [' ', '('], [')'])
    else (b ++ [' ', '('], ')' :: '.' :: e)
  | none => (orig ++ [' ', '('], [')'])

/-- One engine step around `build_path`: build the path for the incoming
provider file, then register the resulting BackupItem row (the engine
creates the item with the built path before the next change arrives). -/
def stepBuild (st : List BackupItemRow × PathCache × List (List Char))
    (f : DriveFile) : List BackupItemRow × PathCache × List (List Char) :=
  let pr := build_path st.1 st.2.1 f
  (st.1 ++ [⟨f.id, pr.1⟩], pr.2, st.2.2 ++ [pr.1])

/-- Process a stream of provider files in order, collecting the paths
assigned to each. -/
def buildAll (db : List BackupItemRow) (cache : PathCache)
    (files : List DriveFile) :
    List BackupItemRow × PathCache × List (List Char) :=
  files.foldl stepBuild (db, cache, [])

/-- A provider file with the given id and name sitting under one folder. -/
def mkFileC6 (nm fId i : List Char) : DriveFile := ⟨i, nm, [fId]⟩

/-- The proposed (pre-conflict-resolution) path every file of the C6
scenario gets: folder path, slash, sanitized name. -/
def origC6 (fPath nm : List Char) : List Char := fPath ++ '/' :: sanitize_name nm

/-! ## Association-list filesystem primitives -/

/-- Remove the binding of `k` (file delete / `unlink`). -/
def eraseAL {α β : Type} [DecidableEq α] : List (α × β) → α → List (α × β)
  | [], _ => []
  | (k2, v) :: rest, k =>
    if k2 = k then eraseAL rest k else (k2, v) :: eraseAL rest k

/-- Overwrite the binding of `k` (write / atomic rename over a target). -/
def setAL {α β : Type} [DecidableEq α] (l : List (α × β)) (k : α) (v : β) :
    List (α × β) :=
  (k, v) :: eraseAL l k

/-! ## AccountStorage: blob writes (`AccountStorage.write_blob`) -/

/-- The observable pieces of an account's storage tree that `write_blob`
touches: `blobs/` keyed by digest string, `tmp/` keyed by temp-file name.
Values are byte lists. -/
structure BlobFS where
  blobs : List (List Char × List Nat)
  tmp : List (List Char × List Nat)
deriving DecidableEq

/-- The failures `write_blob` can surface: an I/O error raised while
streaming into the temp file, or `DigestError`. -/
inductive WriteErr where
  | ioError
  | digestMismatch
deriving DecidableEq

/-- `f"sha256:{hasher.hexdigest()}"` — the hex digest itself is an opaque
function parameter. -/
def digestOf (hexFn : List Nat → List Char) (data : List Nat) : List Char :=
  "sha256:".toList ++ hexFn data

/-- Python `if expected_digest and digest != expected_digest`: truthiness
skips both `None` and the empty string. -/
def pyTruthyNe (expected : Option (List Char)) (digest : List Char) : Bool :=
  match expected with
  | some e => decide (e ≠ []) && decide (digest ≠ e)
  | none => false

/-- `AccountStorage.write_blob`: stream `data` into a fresh temp file
(an injected `fault` aborts the write after `k` bytes and reaches the
`except` cleanup), verify the digest against `expected_digest`, then
atomically rename to the sharded digest path unless a blob already sits
there (dedup hit: discard the temp file).  Every branch removes the temp
file. -/
def write_blob (hexFn : List Nat → List Char) (fs : BlobFS) (tmpName : List Char)
    (data : List Nat) (expected : Option (List Char)) (fault : Option Nat) :
    Except WriteErr (List Char) × BlobFS :=
  let written : List Nat :=
    match fault with
    | some k => data.take k
    | none => data
  let fsTmp : BlobFS := { fs with tmp := setAL fs.tmp tmpName written }
  match fault with
  | some _ =>
    (Except.error WriteErr.ioError, { fsTmp with tmp := eraseAL fsTmp.tmp tmpName })
  | none =>
    let digest := digestOf hexFn data
    if pyTruthyNe expected digest then
      (Except.error WriteErr.digestMismatch,
        { fsTmp with tmp := eraseAL fsTmp.tmp tmpName })
    else
      match lookupAL fsTmp.blobs digest with
      | none =>
        (Except.ok digest,
          { blobs := setAL fsTmp.blobs digest data,
            tmp := eraseAL fsTmp.tmp tmpName })
      | some _ =>
        (Except.ok digest, { fsTmp with tmp := eraseAL fsTmp.tmp tmpName })

/-! ## AccountStorage: archive moves (`move_to_archive`, `restore_from_archive`) -/

/-- The `current/` and `archive/` trees, relative path to bytes. -/
structure TreeFS where
  current : List (List Char × List Nat)
  archive : List (List Char × List Nat)
deriving DecidableEq

/-- `AccountStorage.move_to_archive`: `None` when the source does not
exist; otherwise unlink any existing archive target and rename
`current/<p>` to `archive/<p>`. -/
def move_to_archive (fs : TreeFS) (p : List Char) :
    Option (List Char) × TreeFS :=
  match lookupAL fs.current p with
  | none => (none, fs)
  | some b =>
    (some p, { current := eraseAL fs.current p, archive := setAL fs.archive p b })

/-- `AccountStorage.restore_from_archive`: the inverse rename. -/
def restore_from_archive (fs : TreeFS) (p : List Char) :
    Option (List Char) × TreeFS :=
  match lookupAL fs.archive p with
  | none => (none, fs)
  | some b =>
    (some p, { current := setAL fs.current p b, archive := eraseAL fs.archive p })

/-! ## GarbageCollector: version purge (`GarbageCollector._purge_old_versions`) -/

/-- A `FileVersion` row as phase 1 sees it: primary key and
`captured_at`. -/
structure FileVersionRow where
  vid : Nat
  captured_at : Int
deriving DecidableEq

/-- `cutoff_date = timezone.now() - timedelta(days=keep_days)`, with
timestamps in seconds. -/
def cutoffOf (now : Int) (keepDays : Nat) : Int := now - keepDays * 86400

/-- The ids `_purge_old_versions` deletes for one BackupItem, given its
versions ordered by `captured_at` descending: nothing when there are at
most `keep_n`; otherwise every version whose index is `≥ keep_n` AND
whose `captured_at` is before the cutoff. -/
def versions_to_delete (versions : List FileVersionRow) (keepN : Nat)
    (cutoff : Int) : List Nat :=
  if versions.length ≤ keepN then []
  else
    ((versions.enum.filter fun p =>
      decide (keepN ≤ p.1 ∧ p.2.captured_at < cutoff)).map fun p => p.2.vid)

/-! ## SyncEngine: deletion-state sweep (`SyncEngine._update_deletion_states`) -/

/-- BackupItem states (`ItemState` in `backup/models.py`). -/
inductive BState where
  | active
  | missing_upstream
  | quarantined
  | deleted_upstream
  | purged
deriving DecidableEq

/-- The BackupItem fields the sweep reads and writes. -/
structure SweepItem where
  state : BState
  missing_since_sync_count : Nat
  last_seen_at : Int
  is_file : Bool
  has_versions : Bool
deriving DecidableEq

/-- The sweep's effect on one item plus the side effects it records. -/
structure SweepOutcome where
  item : SweepItem
  quarantined : Bool
  pre_delete_created : Bool
  archived : Bool
deriving DecidableEq

/-- One iteration of `_update_deletion_states`: the query selects ONLY
`state == ACTIVE` items with `last_seen_at < sync_start_time`; a selected
item's counter is incremented, then count `≥ 2` quarantines it (PRE_DELETE
version when it is a file with versions, archive move when it is a file)
and otherwise an ACTIVE item moves to MISSING_UPSTREAM. -/
def sweep_item (syncStart : Int) (it : SweepItem) : SweepOutcome :=
  if it.state = BState.active ∧ it.last_seen_at < syncStart then
    let m := it.missing_since_sync_count + 1
    if 2 ≤ m then
      { item := { it with state := BState.quarantined, missing_since_sync_count := m }
        quarantined := true
        pre_delete_created := it.is_file && it.has_versions
        archived := it.is_file }
    else
      { item :=
          if it.state = BState.active then
            { it with state := BState.missing_upstream, missing_since_sync_count := m }
          else { it with missing_since_sync_count := m }
        quarantined := false
        pre_delete_created := false
        archived := false }
  else
    { item := it
      quarantined := false
      pre_delete_created := false
      archived := false }

/-- `SyncEngine._update_deletion_states` over the item table: updated
items plus the count of newly quarantined ones. -/
def update_deletion_states (syncStart : Int) (items : List SweepItem) :
    List SweepItem × Nat :=
  (items.map fun it => (sweep_item syncStart it).item,
   (items.map fun it => sweep_item syncStart it).countP (·.quarantined))

/-! ## SyncEngine: cursor bookkeeping (`run_sync`, `_run_initial_sync`,
`_run_incremental_sync`) -/

/-- Session status values used by the engine. -/
inductive SessStatus where
  | running
  | completed
  | failed
deriving DecidableEq

/-- The catalog writes the engine performs that claims C2/C8 observe. -/
inductive EngineWrite where
  | setSessionEnd (t : List Char)
  | addEvent
  | setItemState
  | setRootCursor (t : List Char)
  | setRootLastSync
  | setSessionStatus (s : SessStatus)
  | setSessionError (e : List Char)
deriving DecidableEq

/-- The persisted state those writes act on. -/
structure EngineState where
  rootCursor : List Char
  sessionEnd : Option (List Char)
  sessionStatus : SessStatus
  sessionError : Option (List Char)
deriving DecidableEq

def applyWrite (st : EngineState) : EngineWrite → EngineState
  | EngineWrite.setSessionEnd t => { st with sessionEnd := some t }
  | EngineWrite.addEvent => st
  | EngineWrite.setItemState => st
  | EngineWrite.setRootCursor t => { st with rootCursor := t }
  | EngineWrite.setRootLastSync => st
  | EngineWrite.setSessionStatus s => { st with sessionStatus := s }
  | EngineWrite.setSessionError e => { st with sessionError := some e }

def applyWrites (st : EngineState) (ws : List EngineWrite) : EngineState :=
  ws.foldl applyWrite st

/-- Python `self.session.end_cursor or self.sync_root.sync_cursor`:
`None` and the empty string both fall through. -/
def pyOrCursor (a : Option (List Char)) (b : List Char) : List Char :=
  match a with
  | some s => if s = [] then b else s
  | none => b

/-- The writes of `_process_change_batch` for one batch: a SyncEvent per
caught per-change error, then `_save_checkpoint` (write
`session.end_cursor`, emit a CHECKPOINT event). -/
def batchWrites (caughtErrors : Nat) (token : List Char) : List EngineWrite :=
  List.replicate caughtErrors EngineWrite.addEvent ++
    [EngineWrite.setSessionEnd token, EngineWrite.addEvent]

/-- The item saves of the deletion-state sweep. -/
def sweepWrites (n : Nat) : List EngineWrite :=
  List.replicate n EngineWrite.setItemState

/-- Everything `_run_incremental_sync` writes before its final cursor
save: the change-stream batches (`iter_all_changes` yields only non-empty
pages, so a changeless sync contributes no batches), then the sweep. -/
def incrementalBodyWrites (batches : List (Nat × List Char))
    (sweptItems : Nat) : List EngineWrite :=
  (batches.map fun b => batchWrites b.1 b.2).flatten ++ sweepWrites sweptItems

/-- `run_sync` around `_run_incremental_sync`: on an exception after `k`
body writes the session is marked failed with the error message recorded;
on success the SyncRoot cursor is set to
`session.end_cursor or sync_root.sync_cursor` and the session completed
(`end_cursor` is NOT touched at incremental completion). -/
def run_sync_model (st0 : EngineState) (batches : List (Nat × List Char))
    (sweptItems : Nat) (fault : Option (Nat × List Char)) : EngineState :=
  let body := incrementalBodyWrites batches sweptItems
  match fault with
  | some km =>
    let stFail := applyWrites st0 (body.take km.1)
    applyWrites stFail
      [EngineWrite.setSessionStatus SessStatus.failed,
       EngineWrite.setSessionError km.2]
  | none =>
    let stBody := applyWrites st0 body
    applyWrites stBody
      [EngineWrite.setRootCursor (pyOrCursor stBody.sessionEnd stBody.rootCursor),
       EngineWrite.setRootLastSync,
       EngineWrite.setSessionStatus SessStatus.completed]

/-- `run_sync` around `_run_initial_sync`: the terminal start-page token
is saved as the SyncRoot cursor AND as `session.end_cursor` at
completion. -/
def run_initial_model (st0 : EngineState) (batches : List (Nat × List Char))
    (startToken : List Char) (fault : Option (Nat × List Char)) : EngineState :=
  let body := (batches.map fun b => batchWrites b.1 b.2).flatten
  match fault with
  | some km =>
    let stFail := applyWrites st0 (body.take km.1)
    applyWrites stFail
      [EngineWrite.setSessionStatus SessStatus.failed,
       EngineWrite.setSessionError km.2]
  | none =>
    let stBody := applyWrites st0 body
    applyWrites stBody
      [EngineWrite.setRootCursor startToken, EngineWrite.setRootLastSync,
       EngineWrite.setSessionEnd startToken,
       EngineWrite.setSessionStatus SessStatus.completed]

/-- Does a write advance the persisted SyncRoot cursor? -/
def touchesRootCursor : EngineWrite → Bool
  | EngineWrite.setRootCursor _ => true
  | _ => false

/-- C7 scenario input: five versions in capturedAt-descending order, all
older than the cutoff. -/
def versionsExC7 : List FileVersionRow :=
  [⟨1, 100⟩, ⟨2, 90⟩, ⟨3, 80⟩, ⟨4, 70⟩, ⟨5, 60⟩]

/-- C5 counterexample input: a leading TAB followed by 256 two-byte
characters. -/
def exNameC5 : List Char := '\t' :: List.replicate 256 'é'

/-- C4 counterexample input: first parent is the folder `X`, and the
literal id `root` appears second among the parents. -/
def exFileC4 : DriveFile := ⟨"f1".toList, "doc".toList, ["X".toList, "root".toList]⟩

/-! ### Lemmas about sanitization -/

theorem mem_replaceChar {c a : Char} {s : List Char} (h : c ∈ replaceChar a s) :
    c = '_' ∨ c ∈ s := by
  rcases List.mem_map.1 h with ⟨x, hx, hxe⟩
  by_cases hxa : x = a
  · simp only [hxa, if_pos rfl] at hxe
    exact Or.inl hxe.symm
  · simp only [if_neg hxa] at hxe
    exact Or.inr (hxe ▸ hx)

theorem not_mem_replaceChar_self {a : Char} (ha : a ≠ '_') (s : List Char) :
    a ∉ replaceChar a s := by
  intro h
  rcases List.mem_map.1 h with ⟨x, _, hxe⟩
  by_cases hxa : x = a
  · simp only [hxa, if_pos rfl] at hxe
    exact ha hxe.symm
  · simp only [if_neg hxa] at hxe
    exact hxa hxe

theorem not_mem_replaceChar {c a : Char} {s : List Char} (hc : c ∉ s)
    (hu : c ≠ '_') : c ∉ replaceChar a s := by
  intro h
  rcases mem_replaceChar h with h1 | h2
  · exact hu h1
  · exact hc h2

theorem mem_foldl_replace (cs : List Char) (s : List Char) {c : Char}
    (h : c ∈ cs.foldl (fun acc a => replaceChar a acc) s) : c = '_' ∨ c ∈ s := by
  induction cs generalizing s with
  | nil => exact Or.inr h
  | cons a rest ih =>
    rcases ih (replaceChar a s) h with h1 | h2
    · exact Or.inl h1
    · exact mem_replaceChar h2

theorem not_mem_foldl_replace_of_not_mem (cs : List Char) {s : List Char} {c : Char}
    (hc : c ∉ s) (hu : c ≠ '_') :
    c ∉ cs.foldl (fun acc a => replaceChar a acc) s := by
  induction cs generalizing s with
  | nil => exact hc
  | cons a rest ih => exact ih (not_mem_replaceChar hc hu)

theorem not_mem_foldl_replace (cs : List Char) (s : List Char) {c : Char}
    (hcs : c ∈ cs) (hu : c ≠ '_') :
    c ∉ cs.foldl (fun acc a => replaceChar a acc) s := by
  induction cs generalizing s with
  | nil => cases hcs
  | cons a rest ih =>
    rcases List.mem_cons.1 hcs with h1 | h2
    · subst h1
      exact not_mem_foldl_replace_of_not_mem rest (not_mem_replaceChar_self hu s) hu
    · exact ih _ h2

theorem replaceInvalid_no_invalid {c : Char} (hc : c ∈ INVALID_CHARS)
    (s : List Char) : c ∉ replaceInvalid s := by
  have hu : c ≠ '_' := by
    intro he
    subst he
    revert hc
    decide
  exact not_mem_foldl_replace INVALID_CHARS s hc hu

theorem mem_replaceInvalid {c : Char} {s : List Char} (h : c ∈ replaceInvalid s) :
    c = '_' ∨ c ∈ s :=
  mem_foldl_replace INVALID_CHARS s h

theorem replaceInvalid_all_underscore {s : List Char}
    (hall : ∀ c ∈ s, c ∈ INVALID_CHARS) {c : Char} (h : c ∈ replaceInvalid s) :
    c = '_' := by
  rcases mem_replaceInvalid h with h1 | h2
  · exact h1
  · exact absurd h (replaceInvalid_no_invalid (hall c h2) s)

theorem mem_stripDotSpace {c : Char} {s : List Char} (h : c ∈ stripDotSpace s) :
    c ∈ s := by
  unfold stripDotSpace at h
  rw [List.mem_reverse] at h
  have h2 := (List.dropWhile_sublist (l := (s.dropWhile (· ∈ stripChars)).reverse)
    (p := (· ∈ stripChars))).mem h
  rw [List.mem_reverse] at h2
  exact (List.dropWhile_sublist (l := s) (p := (· ∈ stripChars))).mem h2

theorem rsplitLast_some {sep : Char} : ∀ {s b e : List Char},
    rsplitLast sep s = some (b, e) → s = b ++ sep :: e := by
  intro s
  induction s with
  | nil => intro b e h; cases h
  | cons c rest ih =>
    intro b e h
    unfold rsplitLast at h
    cases hr : rsplitLast sep rest with
    | some be =>
      rw [hr] at h
      cases be with
      | mk b0 e0 =>
        simp only [Option.some.injEq, Prod.mk.injEq] at h
        rcases h with ⟨hb, he⟩
        subst hb
        subst he
        have := ih hr
        simp [this]
    | none =>
      rw [hr] at h
      by_cases hc : c = sep
      · simp only [if_pos hc, Option.some.injEq, Prod.mk.injEq] at h
        rcases h with ⟨hb, he⟩
        subst hb
        subst he
        simp [hc]
      · simp [if_neg hc] at h

theorem mem_sanitizeCore {c : Char} {name : List Char} (h : c ∈ sanitizeCore name) :
    c ∈ replaceInvalid name ∨ c ∈ "unnamed".toList := by
  unfold sanitizeCore at h
  by_cases h0 : stripDotSpace (replaceInvalid name) = []
  · simp only [h0, if_pos rfl] at h
    exact Or.inr h
  · simp only [if_neg h0] at h
    exact Or.inl (mem_stripDotSpace h)

theorem sanitizeCore_ne_nil (name : List Char) : sanitizeCore name ≠ [] := by
  unfold sanitizeCore
  by_cases h0 : stripDotSpace (replaceInvalid name) = []
  · simp [h0]
  · simp [h0]

theorem mem_sanitize_name {c : Char} {name : List Char}
    (h : c ∈ sanitize_name name) : c = '.' ∨ c ∈ sanitizeCore name := by
  unfold sanitize_name at h
  by_cases hlen : 255 < (sanitizeCore name).length
  · simp only [if_pos hlen] at h
    cases hr : rsplitLast '.' (sanitizeCore name) with
    | some be =>
      rw [hr] at h
      cases be with
      | mk b e =>
        have hs := rsplitLast_some hr
        by_cases hext : e.length ≤ 10
        · simp only [if_pos hext] at h
          rcases List.mem_append.1 h with h1 | h2
          · have hb : c ∈ b := (List.take_sublist _ _).mem h1
            exact Or.inr (hs ▸ List.mem_append.2 (Or.inl hb))
          · rcases List.mem_cons.1 h2 with h3 | h4
            · exact Or.inl h3
            · exact Or.inr (hs ▸ List.mem_append.2 (Or.inr (List.mem_cons.2 (Or.inr h4))))
        · simp only [if_neg hext] at h
          exact Or.inr ((List.take_sublist _ _).mem h)
    | none =>
      rw [hr] at h
      exact Or.inr ((List.take_sublist _ _).mem h)
  · simp only [if_neg hlen] at h
    exact Or.inr h

theorem sanitize_name_ne_nil (name : List Char) : sanitize_name name ≠ [] := by
  unfold sanitize_name
  by_cases hlen : 255 < (sanitizeCore name).length
  · simp only [if_pos hlen]
    cases hr : rsplitLast '.' (sanitizeCore name) with
    | some be =>
      cases be with
      | mk b e =>
        by_cases hext : e.length ≤ 10
        · simp [if_pos hext]
        · simp only [if_neg hext]
          cases h3 : sanitizeCore name with
          | nil => exact absurd h3 (sanitizeCore_ne_nil name)
          | cons c t => simp
    | none =>
      cases h3 : sanitizeCore name with
      | nil => exact absurd h3 (sanitizeCore_ne_nil name)
      | cons c t => simp
  · simp only [if_neg hlen]
    exact sanitizeCore_ne_nil name

theorem sanitize_name_length_le (name : List Char) :
    (sanitize_name name).length ≤ 255 := by
  unfold sanitize_name
  by_cases hlen : 255 < (sanitizeCore name).length
  · simp only [if_pos hlen]
    cases hr : rsplitLast '.' (sanitizeCore name) with
    | some be =>
      cases be with
      | mk b e =>
        by_cases hext : e.length ≤ 10
        · simp only [if_pos hext, List.length_append, List.length_cons,
            List.length_take]
          omega
        · simp only [if_neg hext, List.length_take]
          omega
    | none =>
      simp only [List.length_take]
      omega
  · simp only [if_neg hlen]
    omega
/-- C5: the claim as stated is false: `_sanitize_name` does NOT strip all
leading/trailing whitespace (only spaces and dots: a leading TAB survives),
and it does NOT truncate to 255 bytes (it truncates to 255 characters,
which here is 509 UTF-8 bytes). -/
theorem sanitize_name_claim_false :
    ('\t').isWhitespace = true ∧
    (sanitize_name exNameC5).head? = some '\t' ∧
    255 < utf8Len (sanitize_name exNameC5) := by decide

/-- C5 (amended): `_sanitize_name` replaces each character of
`<>:"|?*\x00` with `_`, strips leading/trailing SPACES AND DOTS (not all
whitespace), returns `"unnamed"` when the result would be empty, and
truncates to at most 255 CHARACTERS preserving an extension of at most 10
characters when one is present; the result is always non-empty and free of
forbidden characters, and an input made only of forbidden characters
yields an ASCII-only, non-empty name. -/
theorem sanitize_name_spec (name : List Char) :
    sanitize_name name ≠ [] ∧
    (sanitize_name name).length ≤ 255 ∧
    (∀ c, c ∈ sanitize_name name → c ∉ INVALID_CHARS) ∧
    ((∀ c, c ∈ name → c ∈ INVALID_CHARS) →
      ∀ c, c ∈ sanitize_name name → c.toNat < 128) ∧
    (∀ b e, rsplitLast '.' (sanitizeCore name) = some (b, e) →
      255 < (sanitizeCore name).length → e.length ≤ 10 →
      ∃ b2, sanitize_name name = b2 ++ '.' :: e) := by
  refine ⟨sanitize_name_ne_nil name, sanitize_name_length_le name, ?_, ?_, ?_⟩
  · intro c hc hbad
    rcases mem_sanitize_name hc with h1 | h2
    · subst h1
      revert hbad
      decide
    · rcases mem_sanitizeCore h2 with h3 | h4
      · exact replaceInvalid_no_invalid hbad name h3
      · have hok : ∀ c, c ∈ "unnamed".toList → c ∉ INVALID_CHARS := by decide
        exact hok c h4 hbad
  · intro hall c hc
    rcases mem_sanitize_name hc with h1 | h2
    · subst h1
      decide
    · rcases mem_sanitizeCore h2 with h3 | h4
      · have := replaceInvalid_all_underscore hall h3
        subst this
        decide
      · have hok : ∀ c, c ∈ "unnamed".toList → c.toNat < 128 := by decide
        exact hok c h4
  · intro b e hr hlen hext
    refine ⟨b.take (255 - e.length - 1), ?_⟩
    unfold sanitize_name
    rw [if_pos hlen, hr]
    simp [hext]

/-- C5 witness: the amended theorem applied at concrete inputs — an
all-forbidden name sanitizes to a non-empty ASCII string, and a long name
keeps its extension. -/
theorem sanitize_name_spec_witness :
    (sanitize_name "<>?*".toList ≠ [] ∧
      ∀ c, c ∈ sanitize_name "<>?*".toList → c.toNat < 128) ∧
    (∃ b2, sanitize_name (List.replicate 300 'a' ++ ".txt".toList) =
      b2 ++ '.' :: "txt".toList) := by
  constructor
  · exact ⟨(sanitize_name_spec "<>?*".toList).1,
      (sanitize_name_spec "<>?*".toList).2.2.2.1 (by decide)⟩
  · exact (sanitize_name_spec (List.replicate 300 'a' ++ ".txt".toList)).2.2.2.2
      (List.replicate 300 'a') "txt".toList (by decide) (by decide) (by decide)


theorem build_path_hit {cache : PathCache} {i p : List Char} (db : List BackupItemRow)
    (g : DriveFile) (hgi : g.id = i) (h : lookupAL cache i = some p) :
    build_path db cache g = (p, cache) := by
  simp [build_path, hgi, h]

theorem build_path_stores (db : List BackupItemRow) (cache : PathCache)
    (f : DriveFile) :
    lookupAL (build_path db cache f).2 f.id = some (build_path db cache f).1 := by
  cases h : lookupAL cache f.id with
  | some p => simp [build_path, h]
  | none =>
    by_cases hroot : f.parents = [] ∨ "root".toList ∈ f.parents
    · simp only [build_path, h]
      rw [if_pos hroot]
      simp [lookupAL]
    · simp only [build_path, h]
      rw [if_neg hroot]
      simp [lookupAL]

/-- C10: `build_path` is memoized per provider file id.  A cached id
returns the cached path with the cache unchanged, and once a build has
stored a path for an id, any later build for that id — with any name,
any parents, and any database contents — returns the stored path. -/
theorem build_path_memoized (db db2 : List BackupItemRow) (cache : PathCache)
    (f g : DriveFile) (hid : g.id = f.id) :
    (build_path db2 (build_path db cache f).2 g).1 = (build_path db cache f).1 ∧
    ∀ p, lookupAL cache f.id = some p → build_path db cache f = (p, cache) := by
  constructor
  · rw [build_path_hit db2 g hid (build_path_stores db cache f)]
  · intro p hp
    exact build_path_hit db f rfl hp

/-- C10 witness: the file `f1` is first built at the root (path `doc`);
rebuilding `f1` with a different name and different parents still
returns `doc`. -/
theorem build_path_memoized_witness :
    (build_path [] (build_path [] [] ⟨"f1".toList, "doc".toList, []⟩).2
      ⟨"f1".toList, "renamed".toList, ["Z".toList]⟩).1 =
      (build_path [] [] ⟨"f1".toList, "doc".toList, []⟩).1 :=
  (build_path_memoized [] [] [] ⟨"f1".toList, "doc".toList, []⟩
    ⟨"f1".toList, "renamed".toList, ["Z".toList]⟩ rfl).1

/-! ### Root-level condition of `build_path` (claim C4) -/

/-- C4: the claim as stated is false.  With the folder `X` cached at path
`Xp` and a sync root whose `providerRootId` is `R`, the file's first
parent is `X` (neither absent nor the sync root), so the claim demands
the path `Xp/doc`; but the code tests `"root" in drive_file.parents` —
the literal string anywhere in the list — and returns the bare name
`doc`. -/
theorem resolve_conflicts_free {db : List BackupItemRow} {p fid : List Char}
    (h : conflictB db p fid = false) : resolve_conflicts db p fid = p := by
  unfold resolve_conflicts
  unfold resolveLoop
  simp [h]

theorem build_path_root_claim_false :
    (build_path [] [("X".toList, "Xp".toList)] exFileC4).1 =
      sanitize_name exFileC4.name ∧
    sanitize_name exFileC4.name = "doc".toList ∧
    ¬ (exFileC4.parents = [] ∨ exFileC4.parents.head? = some "R".toList) := by
  refine ⟨?_, by decide, by decide⟩
  have h1 : lookupAL [("X".toList, "Xp".toList)] exFileC4.id = none := by decide
  have hroot : exFileC4.parents = [] ∨ "root".toList ∈ exFileC4.parents := by decide
  simp only [build_path, h1]
  rw [if_pos hroot]
  exact resolve_conflicts_free rfl

/-- C4 (amended): for a provider file whose id is not in the path cache
and whose proposed path is non-conflicting, `build_path` returns only the
sanitized name exactly when the file has no parents or the LITERAL id
`"root"` appears ANYWHERE among its parents (the SyncRoot's
`providerRootId` is never consulted); in every other case the result is
the first parent's resolved path, a `/`, and the sanitized name. -/
theorem build_path_spec (db : List BackupItemRow) (cache : PathCache)
    (f : DriveFile) (hid : lookupAL cache f.id = none)
    (hnc : ∀ p, conflictB db p f.id = false) :
    ((build_path db cache f).1 = sanitize_name f.name ↔
      (f.parents = [] ∨ "root".toList ∈ f.parents)) ∧
    (¬ (f.parents = [] ∨ "root".toList ∈ f.parents) →
      (build_path db cache f).1 =
        (resolveParent db cache f.parents.headI).1 ++ '/' :: sanitize_name f.name) := by
  have hres2 : (f.parents = [] ∨ "root".toList ∈ f.parents) →
      (build_path db cache f).1 = sanitize_name f.name := by
    intro h
    simp only [build_path, hid]
    rw [if_pos h]
    exact resolve_conflicts_free (hnc _)
  have hres : ¬ (f.parents = [] ∨ "root".toList ∈ f.parents) →
      (build_path db cache f).1 =
        (resolveParent db cache f.parents.headI).1 ++ '/' :: sanitize_name f.name := by
    intro h
    simp only [build_path, hid]
    rw [if_neg h]
    exact resolve_conflicts_free (hnc _)
  refine ⟨⟨?_, hres2⟩, hres⟩
  intro heq
  by_contra hroot
  rw [hres hroot] at heq
  have hlen := congrArg List.length heq
  simp [List.length_append] at hlen
  omega

/-- C4 witness: a parentless file in an empty sync root builds to its
bare sanitized name. -/
theorem build_path_spec_witness :
    ((build_path [] [] ⟨"f1".toList, "a".toList, []⟩).1 =
      sanitize_name "a".toList ↔
      (([] : List (List Char)) = [] ∨ "root".toList ∈ ([] : List (List Char)))) := by
  exact (build_path_spec [] [] ⟨"f1".toList, "a".toList, []⟩ rfl (fun _ => rfl)).1

/-! ### Decimal digit strings -/

theorem digitChar_toNat {d : Nat} (h : d < 10) : (Nat.digitChar d).toNat = 48 + d := by
  interval_cases d <;> rfl

theorem toDigitsCore_eq_decRep (fuel : Nat) : ∀ (n : Nat) (acc : List Char),
    n < fuel → Nat.toDigitsCore 10 fuel n acc = decRep n ++ acc := by
  induction fuel with
  | zero => intro n acc h; omega
  | succ fuel ih =>
    intro n acc h
    simp only [Nat.toDigitsCore]
    by_cases hdiv : n / 10 = 0
    · have h10 : n < 10 := by omega
      rw [if_pos hdiv, decRep, dif_pos h10, Nat.mod_eq_of_lt h10]
      rfl
    · have h10 : ¬ n < 10 := by omega
      have hlt : n / 10 < fuel := by omega
      rw [if_neg hdiv, ih (n / 10) _ hlt]
      conv_rhs => rw [decRep, dif_neg h10]
      simp

theorem natDigits_eq_decRep (n : Nat) : natDigits n = decRep n := by
  unfold natDigits Nat.toDigits
  rw [toDigitsCore_eq_decRep (n + 1) n [] (Nat.lt_succ_self n)]
  simp

theorem ofDecDigits_snoc (s : List Char) (c : Char) :
    ofDecDigits (s ++ [c]) = 10 * ofDecDigits s + (c.toNat - 48) := by
  simp [ofDecDigits, List.foldl_append]

theorem ofDecDigits_decRep (n : Nat) : ofDecDigits (decRep n) = n := by
  induction n using Nat.strong_induction_on with
  | _ n ih =>
    by_cases h : n < 10
    · rw [decRep, dif_pos h]
      have := digitChar_toNat h
      simp [ofDecDigits, this]
    · rw [decRep, dif_neg h]
      rw [ofDecDigits_snoc]
      have hm : n % 10 < 10 := Nat.mod_lt n (by omega)
      rw [ih (n / 10) (Nat.div_lt_self (by omega) (by omega)), digitChar_toNat hm]
      omega

theorem decRep_inj {m n : Nat} (h : decRep m = decRep n) : m = n := by
  have h1 := ofDecDigits_decRep m
  rw [h, ofDecDigits_decRep n] at h1
  exact h1.symm

theorem natDigits_inj {m n : Nat} (h : natDigits m = natDigits n) : m = n := by
  rw [natDigits_eq_decRep, natDigits_eq_decRep] at h
  exact decRep_inj h

theorem decRep_ne_nil (n : Nat) : decRep n ≠ [] := by
  rw [decRep]
  by_cases h : n < 10
  · simp [dif_pos h]
  · simp [dif_neg h]

theorem natDigits_ne_nil (n : Nat) : natDigits n ≠ [] := by
  rw [natDigits_eq_decRep]
  exact decRep_ne_nil n

theorem natDigits_length_pos (n : Nat) : 0 < (natDigits n).length :=
  List.length_pos.2 (natDigits_ne_nil n)

/-! ### Structure of numbered path variants -/

theorem variant_eq_vsplit (orig : List Char) (c : Nat) :
    variant orig c = (vsplit orig).1 ++ (natDigits c ++ (vsplit orig).2) := by
  unfold variant vsplit
  cases hr : rsplitLast '.' orig with
  | none => simp
  | some be =>
    cases be with
    | mk b e =>
      by_cases hs : '/' ∈ e
      · simp [hs]
      · simp [hs]

theorem vsplit_length (orig : List Char) :
    (vsplit orig).1.length + (vsplit orig).2.length = orig.length + 3 := by
  unfold vsplit
  cases hr : rsplitLast '.' orig with
  | none => simp
  | some be =>
    cases be with
    | mk b e =>
      have horig := rsplitLast_some hr
      by_cases hs : '/' ∈ e
      · simp [hs]
      · simp only [if_neg hs]
        rw [horig]
        simp
        omega

theorem variant_length (orig : List Char) (c : Nat) :
    (variant orig c).length = orig.length + 3 + (natDigits c).length := by
  rw [variant_eq_vsplit]
  have := vsplit_length orig
  simp [List.length_append]
  omega

theorem variant_inj (orig : List Char) {c d : Nat}
    (h : variant orig c = variant orig d) : c = d := by
  rw [variant_eq_vsplit, variant_eq_vsplit] at h
  have h1 : natDigits c ++ (vsplit orig).2 = natDigits d ++ (vsplit orig).2 :=
    List.append_cancel_left h
  have h2 : natDigits c = natDigits d := List.append_cancel_right h1
  exact natDigits_inj h2

theorem variant_ne_orig (orig : List Char) (c : Nat) : variant orig c ≠ orig := by
  intro h
  have hlen := congrArg List.length h
  rw [variant_length] at hlen
  have := natDigits_length_pos c
  omega

theorem variant_ne_fallback (orig : List Char) (c : Nat) (fid : List Char) :
    variant orig c ≠ orig ++ '_' :: fid := by
  unfold variant
  cases hr : rsplitLast '.' orig with
  | none =>
    intro h
    have h1 : (' ' :: '(' :: (natDigits c ++ [')']) : List Char) = '_' :: fid :=
      List.append_cancel_left h
    simp at h1
  | some be =>
    cases be with
    | mk b e =>
      have horig := rsplitLast_some hr
      by_cases hs : '/' ∈ e
      · simp only [if_pos hs]
        intro h
        have h1 : (' ' :: '(' :: (natDigits c ++ [')']) : List Char) = '_' :: fid :=
          List.append_cancel_left h
        simp at h1
      · simp only [if_neg hs]
        intro h
        rw [horig, List.append_assoc] at h
        have h1 : (' ' :: '(' :: (natDigits c ++ ')' :: '.' :: e) : List Char) =
            '.' :: e ++ '_' :: fid := List.append_cancel_left h
        simp at h1

theorem wVar_length_ge (orig : List Char) (j : Nat) :
    orig.length ≤ (wVar orig j).length := by
  cases j with
  | zero => exact le_rfl
  | succ j =>
    rw [wVar, variant_length]
    omega

theorem wVar_inj (orig : List Char) {i j : Nat}
    (h : wVar orig i = wVar orig j) : i = j := by
  cases i with
  | zero =>
    cases j with
    | zero => rfl
    | succ j => exact absurd h.symm (variant_ne_orig orig (j + 1))
  | succ i =>
    cases j with
    | zero => exact absurd h (variant_ne_orig orig (i + 1))
    | succ j =>
      have := variant_inj orig (c := i + 1) (d := j + 1) h
      omega

theorem wVar_ne_fallback (orig : List Char) (j : Nat) (fid : List Char) :
    wVar orig j ≠ orig ++ '_' :: fid := by
  cases j with
  | zero =>
    intro h
    simp only [wVar] at h
    have hlen := congrArg List.length h
    rw [List.length_append, List.length_cons] at hlen
    omega
  | succ j => exact variant_ne_fallback orig (j + 1) fid

/-! ### Trace of the conflict-resolution loop -/

theorem resolveLoop_reaches (db : List BackupItemRow) (fid orig : List Char)
    (k : Nat) (hk : k ≤ 999) (hfree : conflictB db (wVar orig k) fid = false) :
    ∀ d j, k - j = d → j ≤ k →
      (∀ i, j ≤ i → i < k → conflictB db (wVar orig i) fid = true) →
      resolveLoop db fid orig (j + 1) (wVar orig j) = wVar orig k := by
  intro d
  induction d with
  | zero =>
    intro j hd hj _
    have hjk : j = k := by omega
    subst hjk
    unfold resolveLoop
    simp [hfree]
  | succ d ih =>
    intro j hd hj hc
    have hjk : j < k := by omega
    have hcj : conflictB db (wVar orig j) fid = true := hc j le_rfl hjk
    have hcap : ¬ (1000 < j + 1 + 1) := by omega
    unfold resolveLoop
    rw [hcj]
    simp only [if_true, if_neg hcap]
    have hstep : resolveLoop db fid orig (j + 1 + 1) (variant orig (j + 1)) =
        resolveLoop db fid orig (j + 1 + 1) (wVar orig (j + 1)) := rfl
    rw [hstep]
    exact ih (j + 1) (by omega) (by omega) (fun i h1 h2 => hc i (by omega) h2)

theorem resolveLoop_cap (db : List BackupItemRow) (fid orig : List Char)
    (hc : ∀ i, i ≤ 999 → conflictB db (wVar orig i) fid = true) :
    ∀ d j, 999 - j = d → j ≤ 999 →
      resolveLoop db fid orig (j + 1) (wVar orig j) = orig ++ '_' :: fid := by
  intro d
  induction d with
  | zero =>
    intro j hd hj
    have hj9 : j = 999 := by omega
    subst hj9
    unfold resolveLoop
    rw [hc 999 le_rfl]
    simp only [if_true]
    rw [if_pos (by omega : 1000 < 999 + 1 + 1)]
  | succ d ih =>
    intro j hd hj
    have hj9 : j < 999 := by omega
    have hcap : ¬ (1000 < j + 1 + 1) := by omega
    unfold resolveLoop
    rw [hc j (by omega)]
    simp only [if_true, if_neg hcap]
    have hstep : resolveLoop db fid orig (j + 1 + 1) (variant orig (j + 1)) =
        resolveLoop db fid orig (j + 1 + 1) (wVar orig (j + 1)) := rfl
    rw [hstep]
    exact ih (j + 1) (by omega) (by omega)

theorem resolve_conflicts_reaches (db : List BackupItemRow) (fid orig : List Char)
    (k : Nat) (hk : k ≤ 999) (hfree : conflictB db (wVar orig k) fid = false)
    (hc : ∀ i, i < k → conflictB db (wVar orig i) fid = true) :
    resolve_conflicts db orig fid = wVar orig k :=
  resolveLoop_reaches db fid orig k hk hfree k 0 (by omega) (by omega)
    (fun i _ h2 => hc i h2)

theorem resolve_conflicts_cap (db : List BackupItemRow) (fid orig : List Char)
    (hc : ∀ i, i ≤ 999 → conflictB db (wVar orig i) fid = true) :
    resolve_conflicts db orig fid = orig ++ '_' :: fid :=
  resolveLoop_cap db fid orig hc 999 0 (by omega) (by omega)

/-! ### The 1001-collision scenario (claim C6) -/

theorem conflictB_eq_true_iff (db : List BackupItemRow) (p cur : List Char)
    (h : ∀ it ∈ db, it.provider_item_id ≠ cur) :
    conflictB db p cur = true ↔ p ∈ db.map BackupItemRow.path := by
  simp only [conflictB, List.any_eq_true, decide_eq_true_eq, List.mem_map]
  constructor
  · rintro ⟨it, hit, hp, _⟩
    exact ⟨it, hit, hp⟩
  · rintro ⟨it, hit, hp⟩
    exact ⟨it, hit, hp, h it hit⟩

theorem conflictB_eq_false (db : List BackupItemRow) (p cur : List Char)
    (h : ∀ it ∈ db, it.provider_item_id ≠ cur)
    (hp : ¬ p ∈ db.map BackupItemRow.path) : conflictB db p cur = false := by
  cases hb : conflictB db p cur
  · rfl
  · exact absurd ((conflictB_eq_true_iff db p cur h).1 hb) hp

theorem origC6_length (fPath nm : List Char) :
    fPath.length < (origC6 fPath nm).length := by
  have := sanitize_name_ne_nil nm
  have hpos : 0 < (sanitize_name nm).length := List.length_pos.2 this
  simp [origC6, List.length_append]

theorem wVar_ne_fPath (fPath nm : List Char) (j : Nat) :
    wVar (origC6 fPath nm) j ≠ fPath := by
  intro h
  have h1 := origC6_length fPath nm
  have h2 := wVar_length_ge (origC6 fPath nm) j
  rw [h] at h2
  omega

theorem scenario_step_main (fId fPath nm : List Char)
    (consumed : List (List Char)) (db : List BackupItemRow)
    (cache : PathCache) (cur : List Char)
    (hroot : fId ≠ "root".toList)
    (hpaths : db.map BackupItemRow.path =
      fPath :: (List.range consumed.length).map (wVar (origC6 fPath nm)))
    (hids : db.map BackupItemRow.provider_item_id = fId :: consumed)
    (hcfid : lookupAL cache fId = some fPath)
    (hcnone : ∀ i, ¬ i ∈ fId :: consumed → lookupAL cache i = none)
    (hcur : ¬ cur ∈ fId :: consumed)
    (hk : consumed.length ≤ 999) :
    build_path db cache (mkFileC6 nm fId cur) =
      (wVar (origC6 fPath nm) consumed.length,
        (cur, wVar (origC6 fPath nm) consumed.length) :: cache) := by
  have hidne : ∀ it ∈ db, it.provider_item_id ≠ cur := by
    intro it hit he
    have hmem : cur ∈ db.map BackupItemRow.provider_item_id :=
      he ▸ List.mem_map_of_mem BackupItemRow.provider_item_id hit
    rw [hids] at hmem
    exact hcur hmem
  have hlku : lookupAL cache cur = none := hcnone cur hcur
  have hparents : ¬ ((mkFileC6 nm fId cur).parents = [] ∨
      "root".toList ∈ (mkFileC6 nm fId cur).parents) := by
    simp only [mkFileC6, List.mem_singleton]
    rintro (h | h)
    · cases h
    · exact hroot h.symm
  have hfree : conflictB db (wVar (origC6 fPath nm) consumed.length) cur = false := by
    apply conflictB_eq_false db _ cur hidne
    rw [hpaths]
    intro hmem
    rcases List.mem_cons.1 hmem with h1 | h2
    · exact wVar_ne_fPath fPath nm consumed.length h1
    · rcases List.mem_map.1 h2 with ⟨i, hi, hwi⟩
      have := wVar_inj (origC6 fPath nm) hwi
      have := List.mem_range.1 hi
      omega
  have hconf : ∀ i, i < consumed.length →
      conflictB db (wVar (origC6 fPath nm) i) cur = true := by
    intro i hik
    apply (conflictB_eq_true_iff db _ cur hidne).2
    rw [hpaths]
    exact List.mem_cons.2 (Or.inr (List.mem_map.2 ⟨i, List.mem_range.2 hik, rfl⟩))
  have hres : resolve_conflicts db (origC6 fPath nm) cur =
      wVar (origC6 fPath nm) consumed.length :=
    resolve_conflicts_reaches db cur _ consumed.length hk hfree hconf
  simp only [build_path, mkFileC6] at *
  rw [hlku]
  rw [if_neg hparents]
  have hparent : resolveParent db cache (List.headI [fId]) = (fPath, cache) := by
    simp [resolveParent, hcfid]
  rw [hparent]
  simp only []
  rw [show (fPath ++ '/' :: sanitize_name nm) = origC6 fPath nm from rfl, hres]

theorem scenario_step_cap (fId fPath nm : List Char)
    (consumed : List (List Char)) (db : List BackupItemRow)
    (cache : PathCache) (cur : List Char)
    (hroot : fId ≠ "root".toList)
    (hpaths : db.map BackupItemRow.path =
      fPath :: (List.range consumed.length).map (wVar (origC6 fPath nm)))
    (hids : db.map BackupItemRow.provider_item_id = fId :: consumed)
    (hcfid : lookupAL cache fId = some fPath)
    (hcnone : ∀ i, ¬ i ∈ fId :: consumed → lookupAL cache i = none)
    (hcur : ¬ cur ∈ fId :: consumed)
    (hk : consumed.length = 1000) :
    (build_path db cache (mkFileC6 nm fId cur)).1 =
      origC6 fPath nm ++ '_' :: cur := by
  have hidne : ∀ it ∈ db, it.provider_item_id ≠ cur := by
    intro it hit he
    have hmem : cur ∈ db.map BackupItemRow.provider_item_id :=
      he ▸ List.mem_map_of_mem BackupItemRow.provider_item_id hit
    rw [hids] at hmem
    exact hcur hmem
  have hlku : lookupAL cache cur = none := hcnone cur hcur
  have hparents : ¬ ((mkFileC6 nm fId cur).parents = [] ∨
      "root".toList ∈ (mkFileC6 nm fId cur).parents) := by
    simp only [mkFileC6, List.mem_singleton]
    rintro (h | h)
    · cases h
    · exact hroot h.symm
  have hconf : ∀ i, i ≤ 999 →
      conflictB db (wVar (origC6 fPath nm) i) cur = true := by
    intro i hik
    apply (conflictB_eq_true_iff db _ cur hidne).2
    rw [hpaths]
    exact List.mem_cons.2 (Or.inr (List.mem_map.2 ⟨i, List.mem_range.2 (by omega), rfl⟩))
  have hres : resolve_conflicts db (origC6 fPath nm) cur =
      origC6 fPath nm ++ '_' :: cur :=
    resolve_conflicts_cap db cur _ hconf
  simp only [build_path, mkFileC6] at *
  rw [hlku]
  rw [if_neg hparents]
  have hparent : resolveParent db cache (List.headI [fId]) = (fPath, cache) := by
    simp [resolveParent, hcfid]
  rw [hparent]
  simp only []
  rw [show (fPath ++ '/' :: sanitize_name nm) = origC6 fPath nm from rfl, hres]

theorem scenario_fold (fId fPath nm : List Char) (hroot : fId ≠ "root".toList) :
    ∀ (rest consumed : List (List Char)) (db : List BackupItemRow)
      (cache : PathCache) (acc : List (List Char)),
      (fId :: (consumed ++ rest)).Nodup →
      consumed.length + rest.length ≤ 1000 →
      db.map BackupItemRow.path =
        fPath :: (List.range consumed.length).map (wVar (origC6 fPath nm)) →
      db.map BackupItemRow.provider_item_id = fId :: consumed →
      lookupAL cache fId = some fPath →
      (∀ i, ¬ i ∈ fId :: consumed → lookupAL cache i = none) →
      ∃ db2 cache2,
        List.foldl stepBuild (db, cache, acc) (rest.map (mkFileC6 nm fId)) =
          (db2, cache2, acc ++
            (List.range' consumed.length rest.length).map (wVar (origC6 fPath nm))) ∧
        db2.map BackupItemRow.path = fPath ::
          (List.range (consumed.length + rest.length)).map (wVar (origC6 fPath nm)) ∧
        db2.map BackupItemRow.provider_item_id = fId :: (consumed ++ rest) ∧
        lookupAL cache2 fId = some fPath ∧
        (∀ i, ¬ i ∈ fId :: (consumed ++ rest) → lookupAL cache2 i = none) := by
  intro rest
  induction rest with
  | nil =>
    intro consumed db cache acc hn hb hp hi hcf hcn
    refine ⟨db, cache, by simp, by simpa using hp, by simpa using hi, hcf, ?_⟩
    simpa using hcn
  | cons cur rest2 ih =>
    intro consumed db cache acc hn hb hp hi hcf hcn
    have hassoc : consumed ++ cur :: rest2 = (consumed ++ [cur]) ++ rest2 := by simp
    have hcur : ¬ cur ∈ fId :: consumed := by
      intro hmem
      rcases List.mem_cons.1 hmem with h1 | h2
      · have hhead := (List.nodup_cons.1 hn).1
        apply hhead
        rw [← h1]
        exact List.mem_append.2 (Or.inr (List.mem_cons_self _ _))
      · have hnd := (List.nodup_cons.1 hn).2
        have hdisj := List.disjoint_of_nodup_append hnd
        exact hdisj h2 (List.mem_cons_self _ _)
    have hcurfid : cur ≠ fId := by
      intro he
      exact hcur (he ▸ List.mem_cons_self _ _)
    have hk : consumed.length ≤ 999 := by
      have := List.length_cons cur rest2
      omega
    have hstep := scenario_step_main fId fPath nm consumed db cache cur hroot
      hp hi hcf hcn hcur hk
    rw [List.map_cons, List.foldl_cons]
    have hsb : stepBuild (db, cache, acc) (mkFileC6 nm fId cur) =
        (db ++ [⟨cur, wVar (origC6 fPath nm) consumed.length⟩],
          (cur, wVar (origC6 fPath nm) consumed.length) :: cache,
          acc ++ [wVar (origC6 fPath nm) consumed.length]) := by
      simp only [stepBuild, hstep]
      rfl
    rw [hsb]
    have hp2 : (db ++ [(⟨cur, wVar (origC6 fPath nm) consumed.length⟩ : BackupItemRow)]).map
        BackupItemRow.path = fPath ::
        (List.range (consumed ++ [cur]).length).map (wVar (origC6 fPath nm)) := by
      rw [List.map_append, hp]
      simp [List.range_succ]
    have hi2 : (db ++ [(⟨cur, wVar (origC6 fPath nm) consumed.length⟩ : BackupItemRow)]).map
        BackupItemRow.provider_item_id = fId :: (consumed ++ [cur]) := by
      rw [List.map_append, hi]
      simp
    have hcf2 : lookupAL ((cur, wVar (origC6 fPath nm) consumed.length) :: cache)
        fId = some fPath := by
      rw [lookupAL, if_neg hcurfid]
      exact hcf
    have hcn2 : ∀ i, ¬ i ∈ fId :: (consumed ++ [cur]) →
        lookupAL ((cur, wVar (origC6 fPath nm) consumed.length) :: cache) i =
          none := by
      intro i hi2m
      have hine : cur ≠ i := by
        intro he
        apply hi2m
        rw [← he]
        exact List.mem_cons.2 (Or.inr (List.mem_append.2 (Or.inr (List.mem_cons_self _ _))))
      rw [lookupAL, if_neg hine]
      apply hcn
      intro hmem
      apply hi2m
      rcases List.mem_cons.1 hmem with h1 | h2
      · exact h1 ▸ List.mem_cons_self _ _
      · exact List.mem_cons.2 (Or.inr (List.mem_append.2 (Or.inl h2)))
    have hn2 : (fId :: ((consumed ++ [cur]) ++ rest2)).Nodup := by
      rw [← hassoc]
      exact hn
    have hb2 : (consumed ++ [cur]).length + rest2.length ≤ 1000 := by
      have := List.length_cons cur rest2
      simp only [List.length_append, List.length_singleton]
      have hb' := hb
      simp only [List.length_cons] at hb'
      omega
    rcases ih (consumed ++ [cur]) _ _ (acc ++ [wVar (origC6 fPath nm) consumed.length])
      hn2 hb2 hp2 hi2 hcf2 hcn2 with ⟨db2, cache2, hfold, hpf, hif, hcff, hcnf⟩
    refine ⟨db2, cache2, ?_, ?_, ?_, hcff, ?_⟩
    · rw [hfold]
      have hlen1 : (consumed ++ [cur]).length = consumed.length + 1 := by simp
      rw [hlen1]
      have hr : List.range' consumed.length (cur :: rest2).length =
          consumed.length :: List.range' (consumed.length + 1) rest2.length := by
        simp [List.range'_succ]
      rw [hr]
      simp
    · have hlen2 : consumed.length + (cur :: rest2).length =
          (consumed ++ [cur]).length + rest2.length := by
        simp
        omega
      rw [hlen2]
      exact hpf
    · rw [hassoc]
      exact hif
    · intro i him
      apply hcnf
      rw [← hassoc]
      exact him

/-- C6: `_resolve_conflicts` appends ` (N)` before the extension with `N`
incrementing while the proposed path is taken, attempts at most 1,000
numbered variants, and past the cap falls back to the path suffixed with
the provider file id: 1,001 files with the same name arriving under one
folder receive the original path, 999 numbered variants, and one
id-suffixed fallback — 1,001 pairwise-distinct paths. -/
theorem conflict_resolution_1001_distinct (fId fPath nm : List Char)
    (ids : List (List Char)) (hnodup : (fId :: ids).Nodup)
    (hlen : ids.length = 1001) (hroot : fId ≠ "root".toList) :
    ∃ front lastId, ids = front ++ [lastId] ∧
      (buildAll [⟨fId, fPath⟩] [(fId, fPath)] (ids.map (mkFileC6 nm fId))).2.2 =
        (List.range 1000).map (wVar (origC6 fPath nm)) ++
          [origC6 fPath nm ++ '_' :: lastId] ∧
      ((buildAll [⟨fId, fPath⟩] [(fId, fPath)]
        (ids.map (mkFileC6 nm fId))).2.2).length = 1001 ∧
      ((buildAll [⟨fId, fPath⟩] [(fId, fPath)]
        (ids.map (mkFileC6 nm fId))).2.2).Nodup := by
  rcases List.eq_nil_or_concat ids with hnil | ⟨front, lastId, heq⟩
  · rw [hnil] at hlen
    cases hlen
  rw [List.concat_eq_append] at heq
  subst heq
  have hfront : front.length = 1000 := by
    rw [List.length_append, List.length_singleton] at hlen
    omega
  have hn0 : (fId :: ([] ++ front)).Nodup := by
    apply List.Nodup.sublist _ hnodup
    exact List.Sublist.cons₂ fId (List.sublist_append_left front [lastId])
  have hb0 : ([] : List (List Char)).length + front.length ≤ 1000 := by
    simp [hfront]
  have hp0 : ([(⟨fId, fPath⟩ : BackupItemRow)]).map BackupItemRow.path =
      fPath :: (List.range ([] : List (List Char)).length).map
        (wVar (origC6 fPath nm)) := by simp
  have hi0 : ([(⟨fId, fPath⟩ : BackupItemRow)]).map BackupItemRow.provider_item_id =
      fId :: ([] : List (List Char)) := by simp
  have hcf0 : lookupAL [(fId, fPath)] fId = some fPath := by simp [lookupAL]
  have hcn0 : ∀ i, ¬ i ∈ fId :: ([] : List (List Char)) →
      lookupAL [(fId, fPath)] i = none := by
    intro i him
    have hne : fId ≠ i := fun he => him (by simp [he])
    simp [lookupAL, hne]
  obtain ⟨db2, cache2, hfold, hp2, hi2, hcf2, hcn2⟩ :=
    scenario_fold fId fPath nm hroot front [] [⟨fId, fPath⟩] [(fId, fPath)] []
      hn0 hb0 hp0 hi0 hcf0 hcn0
  have hcurL : ¬ lastId ∈ fId :: front := by
    intro hmem
    rcases List.mem_cons.1 hmem with h1 | h2
    · have hhead := (List.nodup_cons.1 hnodup).1
      apply hhead
      rw [← h1]
      exact List.mem_append.2 (Or.inr (List.mem_cons_self _ _))
    · have hnd := (List.nodup_cons.1 hnodup).2
      have hdisj := List.disjoint_of_nodup_append hnd
      exact hdisj h2 (List.mem_cons_self _ _)
  simp only [List.nil_append, List.length_nil, Nat.zero_add] at hp2 hi2 hcn2 hfold
  have hcap := scenario_step_cap fId fPath nm front db2 cache2 lastId hroot
    hp2 hi2 hcf2 hcn2 hcurL hfront
  have hun : buildAll [⟨fId, fPath⟩] [(fId, fPath)]
      ((front ++ [lastId]).map (mkFileC6 nm fId)) =
      List.foldl stepBuild
        (List.foldl stepBuild ([⟨fId, fPath⟩], [(fId, fPath)], [])
          (front.map (mkFileC6 nm fId)))
        ([lastId].map (mkFileC6 nm fId)) := by
    rw [buildAll, List.map_append, List.foldl_append]
  have hresult : (buildAll [⟨fId, fPath⟩] [(fId, fPath)]
      ((front ++ [lastId]).map (mkFileC6 nm fId))).2.2 =
      (List.range 1000).map (wVar (origC6 fPath nm)) ++
        [origC6 fPath nm ++ '_' :: lastId] := by
    rw [hun, hfold]
    simp only [List.map_cons, List.map_nil, List.foldl_cons, List.foldl_nil, stepBuild]
    rw [hcap]
    rw [hfront, List.range_eq_range']
  refine ⟨front, lastId, rfl, hresult, ?_, ?_⟩
  · rw [hresult]
    simp
  · rw [hresult]
    rw [List.nodup_append]
    refine ⟨?_, by simp, ?_⟩
    · apply List.Nodup.map _ (List.nodup_range 1000)
      intro a b hab
      exact wVar_inj (origC6 fPath nm) hab
    · intro a ha hmem
      rcases List.mem_map.1 ha with ⟨j, _, hwj⟩
      rcases List.mem_singleton.1 hmem with h1
      exact wVar_ne_fallback (origC6 fPath nm) j lastId (hwj.trans h1)

/-- C6 witness: 1,001 concrete files named `x.txt` under the folder
`Folder` get 1,001 pairwise-distinct paths. -/
theorem conflict_resolution_1001_distinct_witness :
    ((buildAll [⟨"F".toList, "Folder".toList⟩] [("F".toList, "Folder".toList)]
      (((List.range 1001).map (fun n => 'i' :: natDigits n)).map
        (mkFileC6 "x.txt".toList "F".toList))).2.2).length = 1001 ∧
    ((buildAll [⟨"F".toList, "Folder".toList⟩] [("F".toList, "Folder".toList)]
      (((List.range 1001).map (fun n => 'i' :: natDigits n)).map
        (mkFileC6 "x.txt".toList "F".toList))).2.2).Nodup := by
  have hnodup : ("F".toList :: (List.range 1001).map
      (fun n => 'i' :: natDigits n)).Nodup := by
    rw [List.nodup_cons]
    constructor
    · intro hmem
      rcases List.mem_map.1 hmem with ⟨n, _, he⟩
      have he2 : ('i' :: natDigits n : List Char) = ['F'] := he
      simp only [List.cons.injEq] at he2
      exact absurd he2.1 (by decide)
    · apply List.Nodup.map _ (List.nodup_range 1001)
      intro a b hab
      simp only [List.cons.injEq] at hab
      exact natDigits_inj hab.2
  have h := conflict_resolution_1001_distinct "F".toList "Folder".toList
    "x.txt".toList ((List.range 1001).map (fun n => 'i' :: natDigits n))
    hnodup (by simp) (by decide)
  rcases h with ⟨fr, la, _, _, hl, hnd⟩
  exact ⟨hl, hnd⟩

/-! ### Association-list lemmas -/

theorem lookupAL_eraseAL {α β : Type} [DecidableEq α] (l : List (α × β))
    (k q : α) :
    lookupAL (eraseAL l k) q = if q = k then none else lookupAL l q := by
  induction l with
  | nil => simp [eraseAL, lookupAL]
  | cons kv rest ih =>
    cases kv with
    | mk k2 v =>
      by_cases h2 : k2 = k
      · rw [eraseAL, if_pos h2, ih]
        by_cases hq : q = k
        · simp [hq]
        · have : k2 ≠ q := by
            rw [h2]
            exact fun he => hq he.symm
          simp [hq, lookupAL, this]
      · rw [eraseAL, if_neg h2]
        by_cases hq : k2 = q
        · have hqk : q ≠ k := by
            rw [← hq]
            exact fun he => h2 he
          simp [lookupAL, hq, hqk]
        · rw [lookupAL, if_neg hq, ih, lookupAL, if_neg hq]

theorem lookupAL_setAL_self {α β : Type} [DecidableEq α] (l : List (α × β))
    (k : α) (v : β) : lookupAL (setAL l k v) k = some v := by
  simp [setAL, lookupAL]

theorem lookupAL_setAL_ne {α β : Type} [DecidableEq α] (l : List (α × β))
    (k : α) (v : β) (q : α) (h : q ≠ k) :
    lookupAL (setAL l k v) q = lookupAL l q := by
  rw [setAL, lookupAL, if_neg (fun he => h he.symm), lookupAL_eraseAL,
    if_neg h]

/-! ### Archive round trip (claim C9) -/

/-- C9: for a relative path `p` present under `current/`,
`move_to_archive p` followed by `restore_from_archive p` restores a
`current/` tree pointwise identical to the original (in particular the
bytes at `p` are unchanged), and the archive no longer holds `p`. -/
theorem archive_round_trip (fs : TreeFS) (p : List Char) (b : List Nat)
    (h : lookupAL fs.current p = some b) :
    (∀ q, lookupAL ((restore_from_archive ((move_to_archive fs p).2) p).2).current q =
      lookupAL fs.current q) ∧
    lookupAL ((restore_from_archive ((move_to_archive fs p).2) p).2).archive p =
      none := by
  have hmove : (move_to_archive fs p).2 =
      { current := eraseAL fs.current p, archive := setAL fs.archive p b } := by
    simp [move_to_archive, h]
  have harch : lookupAL ((move_to_archive fs p).2).archive p = some b := by
    rw [hmove]
    exact lookupAL_setAL_self fs.archive p b
  have hrest : (restore_from_archive ((move_to_archive fs p).2) p).2 =
      { current := setAL (eraseAL fs.current p) p b,
        archive := eraseAL (setAL fs.archive p b) p } := by
    simp [restore_from_archive, hmove, lookupAL_setAL_self]
  constructor
  · intro q
    rw [hrest]
    by_cases hq : q = p
    · subst hq
      rw [lookupAL_setAL_self, h]
    · rw [lookupAL_setAL_ne _ _ _ _ hq, lookupAL_eraseAL, if_neg hq]
  · rw [hrest]
    simp [lookupAL_eraseAL]

/-- C9 witness: a two-file `current/` tree round-trips the file `a/b`
through the archive. -/
theorem archive_round_trip_witness :
    (∀ q, lookupAL ((restore_from_archive ((move_to_archive
        ⟨[("a/b".toList, [1, 2]), ("c".toList, [3])], [("a/b".toList, [9])]⟩
        "a/b".toList).2) "a/b".toList).2).current q =
      lookupAL [("a/b".toList, [1, 2]), ("c".toList, [3])] q) ∧
    lookupAL ((restore_from_archive ((move_to_archive
        ⟨[("a/b".toList, [1, 2]), ("c".toList, [3])], [("a/b".toList, [9])]⟩
        "a/b".toList).2) "a/b".toList).2).archive "a/b".toList = none :=
  archive_round_trip ⟨[("a/b".toList, [1, 2]), ("c".toList, [3])],
    [("a/b".toList, [9])]⟩ "a/b".toList [1, 2] rfl

/-! ### Atomicity and dedup of `write_blob` (claim C3) -/

/-- C3: the claim as stated fails at one edge: an expected digest that is
supplied but EMPTY differs from the computed digest, yet `write_blob`
succeeds — `if expected_digest and …` skips verification for the falsy
empty string. -/
theorem write_blob_claim_false :
    (write_blob (fun d => natDigits d.length) ⟨[], []⟩ "t1".toList [1, 2, 3]
      (some []) none).1 =
      Except.ok (digestOf (fun d => natDigits d.length) [1, 2, 3]) ∧
    (some ([] : List Char)).isSome = true ∧
    ([] : List Char) ≠ digestOf (fun d => natDigits d.length) [1, 2, 3] :=
  ⟨rfl, rfl, by decide⟩

/-- C3: `write_blob` returns `sha256:` + the digest of exactly the bytes
written; a supplied non-matching `expected_digest` fails with a digest
mismatch; on ANY failure the blob store is untouched (all-or-nothing) and
the temp file is removed — on every path the `tmp/` tree is restored; and
on a dedup hit the existing blob (indeed the whole store) is left
unchanged.  On a fresh digest the blob appears exactly at its canonical
digest key and nowhere else. -/
theorem write_blob_spec (hexFn : List Nat → List Char) (fs : BlobFS)
    (tmpName : List Char) (data : List Nat) (expected : Option (List Char))
    (fault : Option Nat) (htmp : lookupAL fs.tmp tmpName = none) :
    (∀ q, lookupAL (write_blob hexFn fs tmpName data expected fault).2.tmp q =
      lookupAL fs.tmp q) ∧
    (∀ e, (write_blob hexFn fs tmpName data expected fault).1 = Except.error e →
      (write_blob hexFn fs tmpName data expected fault).2.blobs = fs.blobs) ∧
    (∀ d, (write_blob hexFn fs tmpName data expected fault).1 = Except.ok d →
      d = digestOf hexFn data) ∧
    (∀ e, expected = some e → e ≠ [] → digestOf hexFn data ≠ e → fault = none →
      (write_blob hexFn fs tmpName data expected fault).1 =
        Except.error WriteErr.digestMismatch) ∧
    (lookupAL fs.blobs (digestOf hexFn data) ≠ none →
      (write_blob hexFn fs tmpName data expected fault).2.blobs = fs.blobs) ∧
    (fault = none → pyTruthyNe expected (digestOf hexFn data) = false →
      lookupAL fs.blobs (digestOf hexFn data) = none →
      (write_blob hexFn fs tmpName data expected fault).1 =
        Except.ok (digestOf hexFn data) ∧
      lookupAL (write_blob hexFn fs tmpName data expected fault).2.blobs
        (digestOf hexFn data) = some data ∧
      ∀ d2, d2 ≠ digestOf hexFn data →
        lookupAL (write_blob hexFn fs tmpName data expected fault).2.blobs d2 =
          lookupAL fs.blobs d2) := by
  have htmpAll : ∀ (v : List Nat) q,
      lookupAL (eraseAL (setAL fs.tmp tmpName v) tmpName) q =
        lookupAL fs.tmp q := by
    intro v q
    rw [lookupAL_eraseAL]
    by_cases hq : q = tmpName
    · rw [if_pos hq, hq, htmp]
    · rw [if_neg hq, lookupAL_setAL_ne _ _ _ _ hq]
  cases fault with
  | some k =>
    have heq : write_blob hexFn fs tmpName data expected (some k) =
        (Except.error WriteErr.ioError,
          { blobs := fs.blobs,
            tmp := eraseAL (setAL fs.tmp tmpName (data.take k)) tmpName }) := rfl
    rw [heq]
    refine ⟨fun q => htmpAll _ q, fun e _ => rfl, ?_, ?_, fun _ => rfl, ?_⟩
    · intro d hd
      cases hd
    · intro e _ _ _ hf
      cases hf
    · intro hf
      cases hf
  | none =>
    by_cases hmis : pyTruthyNe expected (digestOf hexFn data) = true
    · have heq : write_blob hexFn fs tmpName data expected none =
          (Except.error WriteErr.digestMismatch,
            { blobs := fs.blobs,
              tmp := eraseAL (setAL fs.tmp tmpName data) tmpName }) := by
        simp only [write_blob, hmis, if_true]
      rw [heq]
      refine ⟨fun q => htmpAll _ q, fun e _ => rfl, ?_, fun _ _ _ _ _ => rfl,
        fun _ => rfl, ?_⟩
      · intro d hd
        cases hd
      · intro _ hmisF _
        rw [hmisF] at hmis
        cases hmis
    · have hmisF : pyTruthyNe expected (digestOf hexFn data) = false := by
        revert hmis
        cases pyTruthyNe expected (digestOf hexFn data) <;> simp
      cases hlb : lookupAL fs.blobs (digestOf hexFn data) with
      | none =>
        have heq : write_blob hexFn fs tmpName data expected none =
            (Except.ok (digestOf hexFn data),
              { blobs := setAL fs.blobs (digestOf hexFn data) data,
                tmp := eraseAL (setAL fs.tmp tmpName data) tmpName }) := by
          simp only [write_blob, hmisF, if_false, Bool.false_eq_true]
          rw [show lookupAL ({ fs with tmp := setAL fs.tmp tmpName data } :
            BlobFS).blobs (digestOf hexFn data) = none from hlb]
        rw [heq]
        refine ⟨fun q => htmpAll _ q, ?_, ?_, ?_, ?_, ?_⟩
        · intro e he
          cases he
        · intro d hd
          cases hd
          rfl
        · intro e hexp hne hdig hf
          exfalso
          apply absurd hmisF
          simp [pyTruthyNe, hexp, hne, hdig]
        · intro hne
          exact absurd rfl hne
        · intro _ _ _
          refine ⟨rfl, lookupAL_setAL_self _ _ _, ?_⟩
          intro d2 hd2
          exact lookupAL_setAL_ne _ _ _ _ hd2
      | some b0 =>
        have heq : write_blob hexFn fs tmpName data expected none =
            (Except.ok (digestOf hexFn data),
              { blobs := fs.blobs,
                tmp := eraseAL (setAL fs.tmp tmpName data) tmpName }) := by
          simp only [write_blob, hmisF, if_false, Bool.false_eq_true]
          rw [show lookupAL ({ fs with tmp := setAL fs.tmp tmpName data } :
            BlobFS).blobs (digestOf hexFn data) = some b0 from hlb]
        rw [heq]
        refine ⟨fun q => htmpAll _ q, ?_, ?_, ?_, fun _ => rfl, ?_⟩
        · intro e he
          cases he
        · intro d hd
          cases hd
          rfl
        · intro e hexp hne hdig hf
          exfalso
          apply absurd hmisF
          simp [pyTruthyNe, hexp, hne, hdig]
        · intro _ _ hnone
          cases hnone

/-- C3 witness: writing three bytes into an empty store succeeds with the
digest of the data, stores the blob, and leaves no temp file; the
supplied-mismatch case fails without touching the store. -/
theorem write_blob_spec_witness :
    (∀ q, lookupAL (write_blob (fun d => natDigits d.length)
        ⟨[], []⟩ "t1".toList [1, 2, 3] none none).2.tmp q =
      lookupAL ([] : List (List Char × List Nat)) q) ∧
    (write_blob (fun d => natDigits d.length) ⟨[], []⟩ "t1".toList [1, 2, 3]
      none none).1 = Except.ok (digestOf (fun d => natDigits d.length) [1, 2, 3]) ∧
    lookupAL (write_blob (fun d => natDigits d.length) ⟨[], []⟩ "t1".toList
      [1, 2, 3] none none).2.blobs
      (digestOf (fun d => natDigits d.length) [1, 2, 3]) = some [1, 2, 3] ∧
    (write_blob (fun d => natDigits d.length) ⟨[], []⟩ "t1".toList [1, 2, 3]
      (some "sha256:9".toList) none).1 = Except.error WriteErr.digestMismatch := by
  have h1 := write_blob_spec (fun d => natDigits d.length) ⟨[], []⟩ "t1".toList
    [1, 2, 3] none none rfl
  have h2 := write_blob_spec (fun d => natDigits d.length) ⟨[], []⟩ "t1".toList
    [1, 2, 3] (some "sha256:9".toList) none rfl
  obtain ⟨hs1, hs2, hs3⟩ := h1.2.2.2.2.2 rfl rfl rfl
  exact ⟨h1.1, hs1, hs2,
    h2.2.2.2.1 "sha256:9".toList rfl (by decide) (by decide) rfl⟩

/-! ### GC phase 1 retention (claim C7) -/

/-- C7: for versions ordered by `captured_at` descending with distinct
ids, phase 1 deletes exactly those whose index is `≥ keepLastN` AND whose
`captured_at` is older than `now − keepDays`; equivalently a version is
retained iff its index is `< keepLastN` or its `captured_at` is at or
after the cutoff. -/
theorem purge_retention_iff (versions : List FileVersionRow) (keepN : Nat)
    (now : Int) (keepDays : Nat)
    (_hsorted : versions.Pairwise fun a b => b.captured_at ≤ a.captured_at)
    (hvid : (versions.map FileVersionRow.vid).Nodup) :
    ∀ i (hi : i < versions.length),
      ((versions.get ⟨i, hi⟩).vid ∈
          versions_to_delete versions keepN (cutoffOf now keepDays) ↔
        (keepN ≤ i ∧
          (versions.get ⟨i, hi⟩).captured_at < cutoffOf now keepDays)) ∧
      (¬ (versions.get ⟨i, hi⟩).vid ∈
          versions_to_delete versions keepN (cutoffOf now keepDays) ↔
        (i < keepN ∨
          cutoffOf now keepDays ≤ (versions.get ⟨i, hi⟩).captured_at)) := by
  intro i hi
  have hmain : (versions.get ⟨i, hi⟩).vid ∈
      versions_to_delete versions keepN (cutoffOf now keepDays) ↔
      (keepN ≤ i ∧
        (versions.get ⟨i, hi⟩).captured_at < cutoffOf now keepDays) := by
    unfold versions_to_delete
    by_cases hlen : versions.length ≤ keepN
    · simp only [if_pos hlen, List.not_mem_nil, false_iff]
      rintro ⟨hk, _⟩
      omega
    · simp only [if_neg hlen]
      constructor
      · intro hmem
        rcases List.mem_map.1 hmem with ⟨⟨j, v⟩, hjf, hvidv⟩
        rcases List.mem_filter.1 hjf with ⟨hjenum, hP⟩
        have hv : versions.get? j = some v := List.mk_mem_enum_iff_get?.1 hjenum
        rw [decide_eq_true_eq] at hP
        have hjlt : j < versions.length := by
          by_contra hge
          rw [List.get?_eq_none.2 (by omega)] at hv
          cases hv
        have hvg : v = versions.get ⟨j, hjlt⟩ := by
          rw [List.get?_eq_get hjlt] at hv
          exact (Option.some.inj hv).symm
        have hlenm : (versions.map FileVersionRow.vid).length = versions.length := by
          simp
        have hij : j = i := by
          have hgm : (versions.map FileVersionRow.vid).get ⟨j, by omega⟩ =
              (versions.map FileVersionRow.vid).get ⟨i, by omega⟩ := by
            rw [List.get_map, List.get_map]
            simp only []
            rw [← hvg, hvidv]
          have := (List.Nodup.get_inj_iff hvid).1 hgm
          exact congrArg Fin.val this
        subst hij
        rw [hvg] at hP
        exact hP
      · rintro ⟨hk, hc⟩
        apply List.mem_map.2
        refine ⟨(i, versions.get ⟨i, hi⟩), ?_, rfl⟩
        apply List.mem_filter.2
        refine ⟨List.mk_mem_enum_iff_get?.2 ?_, ?_⟩
        · rw [List.get?_eq_get hi]
        · rw [decide_eq_true_eq]
          exact ⟨hk, hc⟩
  refine ⟨hmain, ?_⟩
  rw [not_congr hmain]
  omega

/-- C7 witness: five versions all older than the cutoff with
`keepLastN = 3`: exactly the two oldest (ids 4 and 5) are deleted and the
three newest retained. -/
theorem purge_retention_iff_witness :
    versions_to_delete versionsExC7 3 (cutoffOf (2 * 86400) 1) = [4, 5] ∧
    ((versionsExC7.get ⟨3, by decide⟩).vid ∈
        versions_to_delete versionsExC7 3 (cutoffOf (2 * 86400) 1) ↔
      (3 ≤ 3 ∧
        (versionsExC7.get ⟨3, by decide⟩).captured_at < cutoffOf (2 * 86400) 1)) :=
  ⟨by decide,
    (purge_retention_iff versionsExC7 3 (2 * 86400) 1 (by decide) (by decide) 3
      (by decide)).1⟩

/-! ### Deletion-state sweep (claim C1) -/

/-- C1: the code evaluated at the claim's failing input.  An ACTIVE item
(count 0, lastSeenAt 0) unseen by the incremental sync at time 1 moves to
MISSING_UPSTREAM with count 1 — but the sweep of the next sync at time 2,
with the item still unseen, selects ONLY `state == ACTIVE` items, so the
item stays MISSING_UPSTREAM with count 1 forever and quarantines nothing:
the two-strike rule required by the claim (QUARANTINED, count 2) never
fires. -/
theorem two_strike_sweep_stalls :
    (update_deletion_states 1 [⟨BState.active, 0, 0, true, true⟩]).1 =
      [⟨BState.missing_upstream, 1, 0, true, true⟩] ∧
    (update_deletion_states 2
      (update_deletion_states 1 [⟨BState.active, 0, 0, true, true⟩]).1).1 =
      [⟨BState.missing_upstream, 1, 0, true, true⟩] ∧
    (update_deletion_states 2
      (update_deletion_states 1 [⟨BState.active, 0, 0, true, true⟩]).1).2 = 0 := by
  decide

/-! ### Engine write-trace lemmas (claims C2 and C8) -/

theorem applyWrites_append (st : EngineState) (ws1 ws2 : List EngineWrite) :
    applyWrites st (ws1 ++ ws2) = applyWrites (applyWrites st ws1) ws2 := by
  simp [applyWrites, List.foldl_append]

theorem applyWrites_replicate_addEvent (st : EngineState) (n : Nat) :
    applyWrites st (List.replicate n EngineWrite.addEvent) = st := by
  induction n with
  | zero => rfl
  | succ n ih =>
    rw [List.replicate_succ]
    exact ih

theorem applyWrites_sweepWrites (st : EngineState) (n : Nat) :
    applyWrites st (sweepWrites n) = st := by
  unfold sweepWrites
  induction n with
  | zero => rfl
  | succ n ih =>
    rw [List.replicate_succ]
    exact ih

theorem applyWrites_batchWrites (st : EngineState) (c : Nat) (t : List Char) :
    applyWrites st (batchWrites c t) = { st with sessionEnd := some t } := by
  unfold batchWrites
  rw [applyWrites_append, applyWrites_replicate_addEvent]
  rfl

theorem rootCursor_invariant (ws : List EngineWrite)
    (h : ∀ w ∈ ws, touchesRootCursor w = false) :
    ∀ st : EngineState, (applyWrites st ws).rootCursor = st.rootCursor := by
  induction ws with
  | nil => intro st; rfl
  | cons w rest ih =>
    intro st
    have hw := h w (List.mem_cons_self _ _)
    have hrest := fun w2 hw2 => h w2 (List.mem_cons.2 (Or.inr hw2))
    have hstep : (applyWrite st w).rootCursor = st.rootCursor := by
      cases w <;> simp_all [applyWrite, touchesRootCursor]
    calc (applyWrites st (w :: rest)).rootCursor
        = (applyWrites (applyWrite st w) rest).rootCursor := rfl
      _ = (applyWrite st w).rootCursor := ih hrest _
      _ = st.rootCursor := hstep

theorem body_no_root_cursor (batches : List (Nat × List Char)) (swept : Nat) :
    ∀ w ∈ incrementalBodyWrites batches swept, touchesRootCursor w = false := by
  intro w hw
  unfold incrementalBodyWrites at hw
  rcases List.mem_append.1 hw with h1 | h2
  · rcases List.mem_flatten.1 h1 with ⟨l, hl, hwl⟩
    rcases List.mem_map.1 hl with ⟨b, _, hb⟩
    rw [← hb] at hwl
    unfold batchWrites at hwl
    rcases List.mem_append.1 hwl with h3 | h4
    · rw [List.eq_of_mem_replicate h3]
      rfl
    · rcases List.mem_cons.1 h4 with h5 | h6
      · rw [h5]
        rfl
      · rw [List.mem_singleton.1 h6]
        rfl
  · unfold sweepWrites at h2
    rw [List.eq_of_mem_replicate h2]
    rfl

theorem sessionEnd_after_body (batches : List (Nat × List Char)) (swept : Nat) :
    ∀ st : EngineState,
      (applyWrites st (incrementalBodyWrites batches swept)).sessionEnd =
        (if batches.isEmpty then st.sessionEnd
         else (batches.map Prod.snd).getLast?) := by
  unfold incrementalBodyWrites
  induction batches with
  | nil =>
    intro st
    simp [applyWrites_sweepWrites]
  | cons b rest ih =>
    intro st
    rw [List.map_cons, List.flatten_cons, List.append_assoc, applyWrites_append,
      applyWrites_batchWrites]
    rw [ih { st with sessionEnd := some b.2 }]
    cases rest with
    | nil => simp
    | cons r rs =>
      simp only [List.isEmpty_cons, List.map_cons, List.getLast?_cons_cons,
        if_false, Bool.false_eq_true]

/-! ### SyncRoot cursor vs SyncSession end cursor (claim C2) -/

/-- C2: the claim as stated is false.  A successful incremental sync
whose change stream yields no batches (`iter_all_changes` yields only
non-empty pages, so a changeless poll is exactly this) never writes
`session.end_cursor`: the session ends with `endCursor = None` while the
SyncRoot keeps its previous non-null cursor — the two differ. -/
theorem cursor_end_cursor_claim_false :
    (run_sync_model ⟨"tok5".toList, none, SessStatus.running, none⟩ [] 0
      none).sessionEnd ≠
    some ((run_sync_model ⟨"tok5".toList, none, SessStatus.running, none⟩ [] 0
      none).rootCursor) := by
  decide

/-- C2 (amended): after a successful INITIAL sync, and after a successful
incremental sync whose change stream yields at least one batch (with
non-empty checkpoint tokens), `SyncRoot.syncCursor = SyncSession.endCursor`;
an incremental run with no batches instead leaves `endCursor` null (for a
fresh session) and the root cursor unchanged. -/
theorem cursor_end_cursor_amended (st0 : EngineState)
    (batches : List (Nat × List Char)) (swept : Nat) (startToken : List Char) :
    ((run_initial_model st0 batches startToken none).sessionEnd =
      some ((run_initial_model st0 batches startToken none).rootCursor)) ∧
    (batches ≠ [] → (∀ b ∈ batches, b.2 ≠ []) →
      (run_sync_model st0 batches swept none).sessionEnd =
        some ((run_sync_model st0 batches swept none).rootCursor)) ∧
    (batches = [] → st0.sessionEnd = none →
      (run_sync_model st0 batches swept none).rootCursor = st0.rootCursor ∧
      (run_sync_model st0 batches swept none).sessionEnd = none) := by
  refine ⟨rfl, ?_, ?_⟩
  · intro hne htok
    have hse := sessionEnd_after_body batches swept st0
    rw [if_neg (by simpa using hne)] at hse
    cases hlast : (batches.map Prod.snd).getLast? with
    | none =>
      rw [List.getLast?_eq_none_iff] at hlast
      rcases List.map_eq_nil.1 hlast with h
      exact absurd h hne
    | some tLast =>
      have htl : tLast ∈ batches.map Prod.snd := by
        obtain ⟨hne2, he⟩ :=
          List.mem_getLast?_eq_getLast (Option.mem_def.2 hlast)
        rw [he]
        exact List.getLast_mem hne2
      rcases List.mem_map.1 htl with ⟨b, hb, hb2⟩
      have htlne : tLast ≠ [] := hb2 ▸ htok b hb
      rw [hlast] at hse
      show (applyWrites _ _).sessionEnd = some (applyWrites _ _).rootCursor
      simp only [run_sync_model, applyWrites, List.foldl_cons, List.foldl_nil,
        applyWrite]
      simp only [applyWrites] at hse
      rw [hse, pyOrCursor, if_neg htlne]
  · intro hnil hfresh
    subst hnil
    have hbody : incrementalBodyWrites [] swept = sweepWrites swept := rfl
    have hsw : List.foldl applyWrite st0 (sweepWrites swept) = st0 :=
      applyWrites_sweepWrites st0 swept
    constructor
    · show (applyWrites _ _).rootCursor = _
      simp only [run_sync_model, hbody, applyWrites, List.foldl_cons,
        List.foldl_nil, applyWrite]
      rw [hsw, hfresh]
      rfl
    · show (applyWrites _ _).sessionEnd = none
      simp only [run_sync_model, hbody, applyWrites, List.foldl_cons,
        List.foldl_nil, applyWrite]
      rw [hsw]
      exact hfresh

/-- C2 witness: the amended equality applied to a one-batch incremental
run and to an empty incremental run over a fresh session. -/
theorem cursor_end_cursor_amended_witness :
    ((run_sync_model ⟨"old".toList, none, SessStatus.running, none⟩
        [(0, "t1".toList)] 2 none).sessionEnd =
      some ((run_sync_model ⟨"old".toList, none, SessStatus.running, none⟩
        [(0, "t1".toList)] 2 none).rootCursor)) ∧
    ((run_sync_model ⟨"old".toList, none, SessStatus.running, none⟩ [] 0
        none).rootCursor = "old".toList ∧
      (run_sync_model ⟨"old".toList, none, SessStatus.running, none⟩ [] 0
        none).sessionEnd = none) := by
  constructor
  · exact (cursor_end_cursor_amended ⟨"old".toList, none, SessStatus.running,
      none⟩ [(0, "t1".toList)] 2 "s".toList).2.1 (by decide)
      (by intro b hb; rcases List.mem_singleton.1 hb with h; rw [h]; decide)
  · exact (cursor_end_cursor_amended ⟨"old".toList, none, SessStatus.running,
      none⟩ [] 0 "s".toList).2.2 rfl rfl

/-! ### Failed syncs leave the cursor alone (claim C8) -/

/-- C8: if an incremental `run_sync` raises after the session was opened —
at ANY point of the body (change batches, checkpoints, sweep) — the
session is marked failed with `error_message` set and the SyncRoot cursor
is exactly its pre-run value; caught per-change errors are mere event
writes, so a run that only has caught errors completes and advances the
cursor as usual. -/
theorem failed_sync_cursor_unchanged (st0 : EngineState)
    (batches : List (Nat × List Char)) (swept : Nat) (k : Nat)
    (msg : List Char) :
    ((run_sync_model st0 batches swept (some (k, msg))).rootCursor =
        st0.rootCursor ∧
      (run_sync_model st0 batches swept (some (k, msg))).sessionStatus =
        SessStatus.failed ∧
      (run_sync_model st0 batches swept (some (k, msg))).sessionError =
        some msg) ∧
    ((run_sync_model st0 batches swept none).sessionStatus =
        SessStatus.completed ∧
      (run_sync_model st0 batches swept none).rootCursor =
        pyOrCursor (applyWrites st0 (incrementalBodyWrites batches swept)).sessionEnd
          st0.rootCursor) := by
  have htake : ∀ w ∈ (incrementalBodyWrites batches swept).take k,
      touchesRootCursor w = false := by
    intro w hw
    exact body_no_root_cursor batches swept w
      ((List.take_sublist _ _).mem hw)
  have hbodyinv := rootCursor_invariant _ (body_no_root_cursor batches swept) st0
  constructor
  · refine ⟨?_, rfl, rfl⟩
    show (applyWrites (applyWrites st0 _) _).rootCursor = _
    simp only [applyWrites, List.foldl_cons, List.foldl_nil, applyWrite]
    exact rootCursor_invariant _ htake st0
  · refine ⟨rfl, ?_⟩
    show (applyWrites (applyWrites st0 _) _).rootCursor = _
    simp only [applyWrites, List.foldl_cons, List.foldl_nil, applyWrite]
    simp only [applyWrites] at hbodyinv
    rw [hbodyinv]

end LocalDrive
